import Mathlib

/-!
Verification of the download-engine core of the BitTorrentClient repository
against its natural-language specification.

The Go sources are shallowly embedded: byte slices become `List Nat` (each
entry a byte value), Go `int`/`int64` become `Nat` where the source only ever
handles non-negative values (piece indices, offsets, lengths coming from the
wire as `uint32`) and `Int` where the source does signed arithmetic (the
piece-to-file mapper), Go maps become association lists with overwrite
semantics, and fallible functions return their updated state together with an
`Option String` error, mirroring Go's `(T, error)` convention on a mutated
receiver.  SHA-1 is kept abstract: every function that hashes takes a
parameter `h : List Nat → List Nat` standing for `sha1.Sum`.
-/

namespace BTC

/-! ## Wire message codec (internal/peer/message.go) -/

/-- A peer wire-protocol message: `Message` from internal/peer/message.go.
`id` is a byte (the Go field has type `byte`); `payload` is a byte slice. -/
structure Message where
  id : Nat
  payload : List Nat
  deriving DecidableEq, Repr

/-- Big-endian 4-byte encoding of a 32-bit value, as produced by
`binary.BigEndian.PutUint32` (the argument is reduced mod 2^32 by the Go
`uint32` conversion at the call site). -/
def putUint32BE (n : Nat) : List Nat :=
  [n / 2 ^ 24 % 256, n / 2 ^ 16 % 256, n / 2 ^ 8 % 256, n % 256]

/-- Big-endian 4-byte decoding, as in `binary.BigEndian.Uint32` applied to the
first four bytes of a buffer. -/
def getUint32BE (bs : List Nat) : Nat :=
  bs.getD 0 0 * 2 ^ 24 + bs.getD 1 0 * 2 ^ 16 + bs.getD 2 0 * 2 ^ 8 + bs.getD 3 0

/-- `(*Message).Serialize` from internal/peer/message.go.  A `none` receiver is
the Go `nil` message and serializes to the 4-zero-byte keep-alive frame;
otherwise the frame is the big-endian length prefix `1 + len(payload)`
(converted through `uint32`), then the ID byte, then the payload. -/
def serialize : Option Message → List Nat
  | none => [0, 0, 0, 0]
  | some m => putUint32BE ((1 + m.payload.length) % 2 ^ 32) ++ m.id :: m.payload

/-- `DeserializeMessage` from internal/peer/message.go.  The Go function reads
from an `io.Reader`; here the reader is the byte stream `input`, and a result
carries the parsed message (`none` = keep-alive) together with the unread rest
of the stream.  `io.ReadFull` failing for lack of bytes becomes the error
case. -/
def deserializeMessage (input : List Nat) : Except String (Option Message × List Nat) :=
  if input.length < 4 then .error "EOF reading length prefix"
  else
    let len := getUint32BE (input.take 4)
    let rest := input.drop 4
    if len = 0 then .ok (none, rest)
    else if rest.length < len then .error "EOF reading message body"
    else
      let msgBuf := rest.take len
      .ok (some ⟨msgBuf.headD 0, msgBuf.tail⟩, rest.drop len)

theorem getUint32BE_putUint32BE (n : Nat) (hn : n < 2 ^ 32) :
    getUint32BE (putUint32BE n) = n := by
  simp only [putUint32BE, getUint32BE, List.getD_cons_zero, List.getD_cons_succ]
  omega

theorem putUint32BE_length (n : Nat) : (putUint32BE n).length = 4 := rfl

theorem deserializeMessage_serialize_some (id : Nat) (payload rest : List Nat)
    (h : 1 + payload.length < 2 ^ 32) :
    deserializeMessage (serialize (some ⟨id, payload⟩) ++ rest) =
      .ok (some ⟨id, payload⟩, rest) := by
  have hmod : (1 + payload.length) % 2 ^ 32 = 1 + payload.length := Nat.mod_eq_of_lt h
  have hassoc : serialize (some ⟨id, payload⟩) ++ rest =
      putUint32BE (1 + payload.length) ++ (id :: (payload ++ rest)) := by
    simp only [serialize, hmod, List.append_assoc, List.cons_append]
  rw [hassoc]
  have htake : (putUint32BE (1 + payload.length) ++ (id :: (payload ++ rest))).take 4 =
      putUint32BE (1 + payload.length) := by
    rw [← putUint32BE_length (1 + payload.length)]
    exact List.take_left _ _
  have hdrop : (putUint32BE (1 + payload.length) ++ (id :: (payload ++ rest))).drop 4 =
      id :: (payload ++ rest) := by
    rw [← putUint32BE_length (1 + payload.length)]
    exact List.drop_left _ _
  have hlen : (putUint32BE (1 + payload.length) ++ (id :: (payload ++ rest))).length =
      5 + payload.length + rest.length := by
    simp [putUint32BE]
    omega
  rw [deserializeMessage, if_neg (by omega)]
  simp only [htake, hdrop, getUint32BE_putUint32BE _ h]
  rw [if_neg (by omega), if_neg (by simp; omega)]
  have htake2 : (id :: (payload ++ rest)).take (1 + payload.length) = id :: payload := by
    rw [Nat.add_comm, List.take_succ_cons]
    congr 1
    exact List.take_left _ _
  have hdrop2 : (id :: (payload ++ rest)).drop (1 + payload.length) = rest := by
    rw [Nat.add_comm, List.drop_succ_cons]
    exact List.drop_left _ _
  simp [htake2, hdrop2]

theorem deserializeMessage_serialize_none (rest : List Nat) :
    deserializeMessage (serialize none ++ rest) = .ok (none, rest) := by
  rw [serialize, deserializeMessage, if_neg (by simp)]
  simp [getUint32BE]

/-- C5.  The wire message codec round-trips: deserializing the serialization of
any message whose ID is a byte, whose payload entries are bytes, and whose
frame length `1 + len(payload)` fits in a `uint32` yields the same message and
leaves the remaining stream intact; a nil message serializes to the 4-zero-byte
keep-alive frame, which deserializes back to the keep-alive; and on every input
stream deserialization is total, returning either a parse or an error (the
embedded function cannot panic). -/
theorem c5_codec_roundtrip :
    (∀ (m : Message) (rest : List Nat), m.id < 256 → (∀ b ∈ m.payload, b < 256) →
      1 + m.payload.length < 2 ^ 32 →
      deserializeMessage (serialize (some m) ++ rest) = .ok (some m, rest)) ∧
    (serialize none = [0, 0, 0, 0] ∧
      ∀ rest : List Nat, deserializeMessage (serialize none ++ rest) = .ok (none, rest)) ∧
    (∀ bs : List Nat, (∃ e, deserializeMessage bs = .error e) ∨
      (∃ v, deserializeMessage bs = .ok v)) := by
  refine ⟨fun m rest _ _ h => ?_, ⟨rfl, deserializeMessage_serialize_none⟩, fun bs => ?_⟩
  · obtain ⟨id, payload⟩ := m
    exact deserializeMessage_serialize_some id payload rest h
  · cases hd : deserializeMessage bs with
    | error e => exact Or.inl ⟨e, rfl⟩
    | ok v => exact Or.inr ⟨v, rfl⟩

/-- Witness for C5 at a concrete Have message (ID 4, 4-byte payload). -/
theorem c5_codec_roundtrip_witness :
    deserializeMessage (serialize (some ⟨4, [0, 0, 0, 7]⟩) ++ [9, 9]) =
      .ok (some ⟨4, [0, 0, 0, 7]⟩, [9, 9]) :=
  c5_codec_roundtrip.1 ⟨4, [0, 0, 0, 7]⟩ [9, 9] (by decide) (by decide) (by decide)

/-! ## Pieces and blocks (internal/pieces/piece.go) -/

/-- `BlockSize` from internal/pieces/piece.go: 16 KiB blocks. -/
def BlockSize : Nat := 16384

/-- `MaxRequestsPerPeer` from internal/pieces/piece.go. -/
def MaxRequestsPerPeer : Nat := 5

/-- `Block` from internal/pieces/piece.go.  The Go field is named `Begin`;
here `begin_` because `begin` is reserved. -/
structure GoBlock where
  begin_ : Nat
  length : Nat
  data : List Nat
  deriving DecidableEq, Repr, Inhabited

/-- `Piece` from internal/pieces/piece.go. -/
structure Piece where
  index : Nat
  hash : List Nat
  length : Nat
  blocks : List GoBlock
  downloaded : List Bool
  complete : Bool
  data : List Nat
  deriving DecidableEq, Repr, Inhabited

/-- `NewPiece` from internal/pieces/piece.go: `ceil(length / BlockSize)` blocks,
block `i` starting at `i * BlockSize`, the last block truncated to the piece
length; an all-false download bitmap and a zeroed buffer of exactly `length`
bytes. -/
def newPiece (index : Nat) (hash : List Nat) (length : Nat) : Piece :=
  let numBlocks := (length + BlockSize - 1) / BlockSize
  { index := index
    hash := hash
    length := length
    blocks := (List.range numBlocks).map fun i =>
      { begin_ := i * BlockSize
        length := if i * BlockSize + BlockSize > length then length - i * BlockSize else BlockSize
        data := [] }
    downloaded := List.replicate numBlocks false
    complete := false
    data := List.replicate length 0 }

/-- Semantics of Go's `copy(dst[start:start+len(src)], src)`: overwrite `dst`
from position `start` with `src`, clamped to the destination (Go would panic
if the slice bounds exceeded `dst`; that situation is unreachable under the
piece invariant proved below, and the clamped form always preserves the
destination length). -/
def listCopy (dst : List Nat) (start : Nat) (src : List Nat) : List Nat :=
  dst.take start ++ src.take (dst.length - start) ++ dst.drop (start + src.length)

theorem listCopy_length (dst : List Nat) (start : Nat) (src : List Nat) :
    (listCopy dst start src).length = dst.length := by
  simp [listCopy]
  omega

/-- `checkComplete` from internal/pieces/piece.go: sets `Complete` when every
entry of `Downloaded` is true, otherwise leaves the piece untouched. -/
def checkComplete (p : Piece) : Piece :=
  if p.downloaded.all id then { p with complete := true } else p

/-- `SetBlock` from internal/pieces/piece.go (the variant with the duplicate
skip).  The result pairs the updated piece with the Go error value; on the
three validation errors the receiver is untouched, on a duplicate the call
succeeds without changes, otherwise the data is copied into the buffer, the
bitmap bit set and the block data recorded, then the (dead, given the piece
invariant) out-of-bounds check runs, and finally `checkComplete`. -/
def setBlock (p : Piece) (begin_ : Nat) (data : List Nat) : Piece × Option String :=
  let blockIndex := begin_ / BlockSize
  if blockIndex ≥ p.blocks.length then (p, some "block index out of range")
  else
    let block := p.blocks.getD blockIndex default
    if block.begin_ ≠ begin_ then (p, some "block begin mismatch")
    else if data.length ≠ block.length then (p, some "block length mismatch")
    else if p.downloaded.getD blockIndex false then (p, none)
    else
      let p' := { p with
        data := listCopy p.data begin_ data
        downloaded := p.downloaded.set blockIndex true
        blocks := p.blocks.set blockIndex { block with data := data } }
      if begin_ + data.length > p'.data.length then (p', some "write out of bounds")
      else (checkComplete p', none)

/-- `Validate` from internal/pieces/piece.go, with `sha1.Sum` abstracted as
`h`: false unless the piece is complete and its buffer has the declared
length; otherwise compares the hash of the buffer against the expected one. -/
def validate (h : List Nat → List Nat) (p : Piece) : Bool :=
  if ¬p.complete then false
  else if p.data.length ≠ p.length then false
  else h (p.data.take p.length) == p.hash

/-- `GetNextBlock` from internal/pieces/piece.go: the block at the first index
whose `Downloaded` entry is false. -/
def getNextBlock (p : Piece) : Option GoBlock :=
  match (List.range p.downloaded.length).find? (fun i => p.downloaded.getD i false = false) with
  | some i => some (p.blocks.getD i default)
  | none => none

/-- `Reset` from internal/pieces/piece.go: clear the bitmap and per-block data
(the loop runs over the bitmap indices, which coincide with the block indices
under the piece invariant), mark not complete, and reallocate a zeroed
buffer of the declared length. -/
def resetPiece (p : Piece) : Piece :=
  { p with
    downloaded := p.downloaded.map fun _ => false
    blocks := p.blocks.map fun b => { b with data := [] }
    complete := false
    data := List.replicate p.length 0 }

/-- `IsComplete` on pieces, defined in the manager source file: every entry of
`Downloaded` is true (it does not consult the `Complete` flag). -/
def pieceIsComplete (p : Piece) : Bool :=
  p.downloaded.all id

/-! ## Piece manager (internal/pieces/manager.go and its file-writer variant) -/

/-- `Manager` from internal/pieces/manager.go.  The Go maps
`pendingPieces : map[int]*Piece` and `completePieces : map[int]bool` are
modelled by their key sets; `requests : map[string]*Request` (key
`"pieceIndex:begin"`) by the set of `(pieceIndex, begin)` pairs.  The mutex,
the file writer/mapper handles, the resume map and the wall-clock start time
carry no piece state and are omitted. -/
structure Manager where
  pieces : List Piece
  totalPieces : Nat
  pieceLength : Nat
  totalLength : Nat
  downloaded : Nat
  pendingPieces : List Nat
  completePieces : List Nat
  requests : List (Nat × Nat)
  downloadedBytes : Nat
  deriving DecidableEq, Repr

/-- `NewManager`: one piece per hash, each of the full piece length except the
last, which gets `totalLength % pieceLength` when that remainder is
nonzero. -/
def newManager (hashes : List (List Nat)) (pieceLength totalLength : Nat) : Manager :=
  { pieces := (List.range hashes.length).map fun i =>
      let length :=
        if i = hashes.length - 1 ∧ totalLength % pieceLength ≠ 0 then
          totalLength % pieceLength
        else pieceLength
      newPiece i (hashes.getD i []) length
    totalPieces := hashes.length
    pieceLength := pieceLength
    totalLength := totalLength
    downloaded := 0
    pendingPieces := []
    completePieces := []
    requests := []
    downloadedBytes := 0 }

theorem getD_range_map {α : Type} (f : Nat → α) (n i : Nat) (d : α) (h : i < n) :
    ((List.range n).map f).getD i d = f i := by
  rw [List.getD_eq_getElem _ _ (by simpa using h)]
  simp

/-- C6.  Every piece built by the manager has the full piece length except the
last, which has length `totalLength % pieceLength` when that remainder is
nonzero; each piece has `ceil(length / 16384)` blocks, block `j` starting at
offset `j * 16384` with length 16384 except the final block, whose length is
the piece length minus its offset. -/
theorem c6_piece_and_block_geometry (hashes : List (List Nat)) (pieceLength totalLength i : Nat)
    (hpl : 0 < pieceLength) (hi : i < hashes.length) :
    ((newManager hashes pieceLength totalLength).pieces.getD i default).length =
      (if i = hashes.length - 1 ∧ totalLength % pieceLength ≠ 0 then
        totalLength % pieceLength else pieceLength) ∧
    ((newManager hashes pieceLength totalLength).pieces.getD i default).blocks.length =
      (((newManager hashes pieceLength totalLength).pieces.getD i default).length
        + BlockSize - 1) / BlockSize ∧
    ∀ j, j < ((newManager hashes pieceLength totalLength).pieces.getD i default).blocks.length →
      let p := (newManager hashes pieceLength totalLength).pieces.getD i default
      (p.blocks.getD j default).begin_ = j * BlockSize ∧
      (j + 1 < p.blocks.length → (p.blocks.getD j default).length = BlockSize) ∧
      (j + 1 = p.blocks.length → (p.blocks.getD j default).length = p.length - j * BlockSize) := by
  have hget : (newManager hashes pieceLength totalLength).pieces.getD i default =
      newPiece i (hashes.getD i [])
        (if i = hashes.length - 1 ∧ totalLength % pieceLength ≠ 0 then
          totalLength % pieceLength else pieceLength) := by
    unfold newManager
    exact getD_range_map _ _ _ _ hi
  rw [hget]
  set L : Nat := if i = hashes.length - 1 ∧ totalLength % pieceLength ≠ 0 then
    totalLength % pieceLength else pieceLength with hL
  have hLpos : 0 < L := by
    rw [hL]
    split
    · rename_i hc
      exact Nat.pos_of_ne_zero hc.2
    · exact hpl
  have hblen : (newPiece i (hashes.getD i []) L).blocks.length = (L + BlockSize - 1) / BlockSize := by
    simp [newPiece]
  refine ⟨rfl, by simp [newPiece], fun j hj => ?_⟩
  rw [hblen] at hj
  dsimp only
  have hgetb : ∀ k, k < (L + BlockSize - 1) / BlockSize →
      (newPiece i (hashes.getD i []) L).blocks.getD k default =
        { begin_ := k * BlockSize
          length := if k * BlockSize + BlockSize > L then L - k * BlockSize else BlockSize
          data := [] } := by
    intro k hk
    unfold newPiece
    exact getD_range_map _ _ _ _ hk
  have hdm := Nat.div_add_mod (L + BlockSize - 1) BlockSize
  have hmlt : (L + BlockSize - 1) % BlockSize < BlockSize := Nat.mod_lt _ (by decide)
  rw [hgetb j hj, hblen]
  have hplen : (newPiece i (hashes.getD i []) L).length = L := rfl
  rw [hplen]
  refine ⟨rfl, fun hfin => ?_, fun hfin => ?_⟩
  · rw [if_neg]
    simp only [BlockSize] at hdm hmlt hj hfin ⊢
    omega
  · simp only [BlockSize] at hdm hmlt hj hfin hLpos ⊢
    split
    · rfl
    · omega

theorem getD_set_self {α : Type} {l : List α} {i : Nat} {v d : α} (h : i < l.length) :
    (l.set i v).getD i d = v := by
  rw [List.getD_eq_getElem _ _ (by simpa using h)]
  exact List.getElem_set_self _

theorem getD_set_ne {α : Type} {l : List α} {i j : Nat} {v d : α} (hne : i ≠ j)
    (h : j < l.length) :
    (l.set i v).getD j d = l.getD j d := by
  rw [List.getD_eq_getElem _ _ (by simpa using h), List.getElem_set_ne hne,
    List.getD_eq_getElem _ _ h]

theorem getD_map {α β : Type} (f : α → β) {l : List α} {j : Nat} {d : β} {c : α}
    (h : j < l.length) :
    (l.map f).getD j d = f (l.getD j c) := by
  rw [List.getD_eq_getElem _ _ (by simpa using h), List.getElem_map,
    List.getD_eq_getElem _ _ h]

/-- Witness for C6 at a concrete two-piece torrent with a short last piece. -/
theorem c6_piece_and_block_geometry_witness :
    ((newManager [[1], [2]] 40000 70000).pieces.getD 1 default).length =
      (if 1 = [[1], [2]].length - 1 ∧ 70000 % 40000 ≠ 0 then 70000 % 40000 else 40000) ∧
    (if 1 = [[1], [2]].length - 1 ∧ 70000 % 40000 ≠ 0 then 70000 % 40000 else 40000) = 30000 :=
  ⟨(c6_piece_and_block_geometry [[1], [2]] 40000 70000 1 (by decide) (by decide)).1, by decide⟩

/-! ## The piece structural invariant (C9) -/

/-- The structural invariant of a `Piece`: the buffer is exactly as long as the
declared piece length, the bitmap is exactly as long as the block list, the
block count matches `ceil(length / BlockSize)`, every block starts at
`index * BlockSize` and lies inside the piece, and the `Complete` flag is set
only when the whole bitmap is set. -/
def pieceInv (p : Piece) : Prop :=
  p.data.length = p.length ∧
  p.downloaded.length = p.blocks.length ∧
  p.blocks.length = (p.length + BlockSize - 1) / BlockSize ∧
  (∀ j, j < p.blocks.length →
    (p.blocks.getD j default).begin_ = j * BlockSize ∧
    (p.blocks.getD j default).begin_ + (p.blocks.getD j default).length ≤ p.length) ∧
  (p.complete = true → p.downloaded.all id = true)

instance (p : Piece) : Decidable (pieceInv p) := by
  unfold pieceInv
  infer_instance

theorem pieceInv_newPiece (index : Nat) (hash : List Nat) (length : Nat) :
    pieceInv (newPiece index hash length) := by
  have hdm := Nat.div_add_mod (length + BlockSize - 1) BlockSize
  have hmlt : (length + BlockSize - 1) % BlockSize < BlockSize :=
    Nat.mod_lt _ (by decide)
  refine ⟨by simp [newPiece], by simp [newPiece], by simp [newPiece], fun j hj => ?_,
    by simp [newPiece]⟩
  have hj' : j < (length + BlockSize - 1) / BlockSize := by simpa [newPiece] using hj
  have hgb : (newPiece index hash length).blocks.getD j default =
      { begin_ := j * BlockSize
        length := if j * BlockSize + BlockSize > length then length - j * BlockSize
          else BlockSize
        data := [] } := by
    unfold newPiece
    exact getD_range_map _ _ _ _ hj'
  rw [hgb]
  refine ⟨rfl, ?_⟩
  show j * BlockSize + (if j * BlockSize + BlockSize > length then length - j * BlockSize
    else BlockSize) ≤ length
  simp only [BlockSize] at hdm hmlt hj' ⊢
  split <;> omega

theorem all_id_set_true {l : List Bool} {i : Nat} (h : l.all id = true) :
    (l.set i true).all id = true := by
  rw [List.all_eq_true] at h ⊢
  intro x hx
  rcases List.mem_or_eq_of_mem_set hx with hmem | rfl
  · exact h x hmem
  · rfl

/-- `setBlock` preserves the piece invariant, and any erroring call leaves the
piece unchanged. -/
theorem setBlock_spec (p : Piece) (begin_ : Nat) (d : List Nat) (hp : pieceInv p) :
    pieceInv (setBlock p begin_ d).1 ∧
      ((setBlock p begin_ d).2 ≠ none → (setBlock p begin_ d).1 = p) := by
  obtain ⟨h1, h2, h3, h4, h5⟩ := hp
  unfold setBlock
  by_cases hbi : begin_ / BlockSize ≥ p.blocks.length
  · rw [if_pos hbi]
    exact ⟨⟨h1, h2, h3, h4, h5⟩, fun _ => rfl⟩
  · rw [if_neg hbi]
    push_neg at hbi
    dsimp only
    by_cases hbeg : (p.blocks.getD (begin_ / BlockSize) default).begin_ ≠ begin_
    · rw [if_pos hbeg]
      exact ⟨⟨h1, h2, h3, h4, h5⟩, fun _ => rfl⟩
    · rw [if_neg hbeg]
      push_neg at hbeg
      by_cases hdl : d.length ≠ (p.blocks.getD (begin_ / BlockSize) default).length
      · rw [if_pos hdl]
        exact ⟨⟨h1, h2, h3, h4, h5⟩, fun _ => rfl⟩
      · rw [if_neg hdl]
        push_neg at hdl
        by_cases hdup : p.downloaded.getD (begin_ / BlockSize) false = true
        · rw [if_pos hdup]
          exact ⟨⟨h1, h2, h3, h4, h5⟩, fun hne => absurd rfl hne⟩
        · rw [if_neg hdup]
          have hgeo := h4 (begin_ / BlockSize) hbi
          have hle : begin_ + d.length ≤ p.length := by
            have h' := hgeo.2
            rw [hbeg] at h'
            omega
          have hcond : ¬(begin_ + d.length > (listCopy p.data begin_ d).length) := by
            rw [listCopy_length, h1]
            omega
          rw [if_neg hcond]
          have hinv' : pieceInv
              { p with
                data := listCopy p.data begin_ d
                downloaded := p.downloaded.set (begin_ / BlockSize) true
                blocks := p.blocks.set (begin_ / BlockSize)
                  { p.blocks.getD (begin_ / BlockSize) default with data := d } } := by
            refine ⟨by simpa [listCopy_length] using h1, by simpa using h2, by simpa using h3,
              fun j hj => ?_, fun hc => all_id_set_true (h5 hc)⟩
            simp only [List.length_set] at hj
            by_cases hji : j = begin_ / BlockSize
            · rw [hji, getD_set_self (hji ▸ hj)]
              simpa using h4 (begin_ / BlockSize) (hji ▸ hj)
            · rw [getD_set_ne (fun he => hji he.symm) hj]
              exact h4 j hj
          refine ⟨?_, fun hne => absurd rfl hne⟩
          unfold checkComplete
          split
          · rename_i hall
            obtain ⟨g1, g2, g3, g4, _⟩ := hinv'
            exact ⟨g1, g2, g3, g4, fun _ => hall⟩
          · exact hinv'

theorem resetPiece_pieceInv (p : Piece) (hp : pieceInv p) : pieceInv (resetPiece p) := by
  obtain ⟨h1, h2, h3, h4, _⟩ := hp
  refine ⟨by simp [resetPiece], by simpa [resetPiece] using h2, by simpa [resetPiece] using h3,
    fun j hj => ?_, by simp [resetPiece]⟩
  simp only [resetPiece, List.length_map] at hj ⊢
  rw [getD_map (c := default) _ hj]
  exact h4 j hj

/-- Operations a piece is subjected to: block arrivals and resets. -/
inductive PieceOp where
  | set (begin_ : Nat) (data : List Nat)
  | reset

/-- Run a sequence of `SetBlock` / `Reset` calls against a piece. -/
def runPieceOps (p : Piece) : List PieceOp → Piece
  | [] => p
  | .set b d :: ops => runPieceOps (setBlock p b d).1 ops
  | .reset :: ops => runPieceOps (resetPiece p) ops

theorem runPieceOps_pieceInv (p : Piece) (ops : List PieceOp) (hp : pieceInv p) :
    pieceInv (runPieceOps p ops) := by
  induction ops generalizing p with
  | nil => exact hp
  | cons op ops ih =>
    cases op with
    | set b d => exact ih _ (setBlock_spec p b d hp).1
    | reset => exact ih _ (resetPiece_pieceInv p hp)

/-- C9.  Along any sequence of `SetBlock` and `Reset` calls starting from
`NewPiece`, the structural invariant holds (buffer length equals the declared
length, bitmap length equals the block count, `Complete` only when the whole
bitmap is set); and any `SetBlock` call that returns an error leaves the piece
— buffer, bitmap, blocks and `Complete` flag — unchanged. -/
theorem c9_setblock_reset_invariant :
    (∀ (index : Nat) (hash : List Nat) (length : Nat) (ops : List PieceOp),
      pieceInv (runPieceOps (newPiece index hash length) ops)) ∧
    (∀ (p : Piece) (begin_ : Nat) (data : List Nat), pieceInv p →
      (setBlock p begin_ data).2 ≠ none → (setBlock p begin_ data).1 = p) :=
  ⟨fun index hash length ops => runPieceOps_pieceInv _ ops (pieceInv_newPiece index hash length),
   fun p begin_ data hp => (setBlock_spec p begin_ data hp).2⟩

/-- Witness for C9: a one-block piece run through a download and a reset, and a
rejected out-of-range `SetBlock` leaving a fresh piece untouched. -/
theorem c9_setblock_reset_invariant_witness :
    pieceInv (runPieceOps (newPiece 0 [0] 5) [PieceOp.set 0 [1, 2, 3, 4, 5], PieceOp.reset]) ∧
    (setBlock (newPiece 0 [0] 5) 16384 [1]).1 = newPiece 0 [0] 5 :=
  ⟨c9_setblock_reset_invariant.1 0 [0] 5 [PieceOp.set 0 [1, 2, 3, 4, 5], PieceOp.reset],
   c9_setblock_reset_invariant.2 (newPiece 0 [0] 5) 16384 [1] (by decide) (by decide)⟩

/-! ## Bitfield queries and updates (manager.go `peerHasPiece`, part_010 `HasPiece`/`SetPiece`) -/

/-- `(*Manager).peerHasPiece` from internal/pieces/manager.go: a Go nil slice
is `none`; a set bit is tested MSB-first within each byte. -/
def peerHasPiece (index : Nat) (bitfield : Option (List Nat)) : Bool :=
  match bitfield with
  | none => false
  | some bf =>
    let byteIndex := index / 8
    let bitIndex := index % 8
    if byteIndex ≥ bf.length then false
    else bf.getD byteIndex 0 &&& (1 <<< (7 - bitIndex)) != 0

/-- `Peer` from the peer connection source: only the fields touched by the
embedded operations are carried (the socket handle is external state). -/
structure Peer where
  id : Nat
  choked : Bool
  choking : Bool
  interested : Bool
  interesting : Bool
  bitfield : Option (List Nat)
  deriving DecidableEq, Repr

/-- `(*Peer).HasPiece`: textually the same test as `peerHasPiece`. -/
def Peer.hasPiece (p : Peer) (index : Nat) : Bool :=
  match p.bitfield with
  | none => false
  | some bf =>
    let byteIndex := index / 8
    let bitIndex := index % 8
    if byteIndex ≥ bf.length then false
    else bf.getD byteIndex 0 &&& (1 <<< (7 - bitIndex)) != 0

/-- `(*Peer).SetPiece`: a no-op on a nil bitfield or an out-of-range index,
otherwise ORs the piece's bit into its byte. -/
def Peer.setPiece (p : Peer) (index : Nat) : Peer :=
  match p.bitfield with
  | none => p
  | some bf =>
    let byteIndex := index / 8
    let bitIndex := index % 8
    if byteIndex ≥ bf.length then p
    else { p with
      bitfield := some (bf.set byteIndex (bf.getD byteIndex 0 ||| (1 <<< (7 - bitIndex)))) }

/-- C10.  Bitfield queries and updates are total: for every piece index,
`HasPiece` and `peerHasPiece` return false when the bitfield is nil or the
index lies beyond the bitfield (no out-of-bounds read exists since the
functions are total over all of `Nat`), and `SetPiece` on a nil bitfield or an
out-of-range index returns the peer unchanged. -/
theorem c10_bitfield_totality :
    (∀ index : Nat, peerHasPiece index none = false) ∧
    (∀ (index : Nat) (bf : List Nat), index / 8 ≥ bf.length →
      peerHasPiece index (some bf) = false) ∧
    (∀ (index : Nat) (p : Peer), p.bitfield = none → p.hasPiece index = false) ∧
    (∀ (index : Nat) (p : Peer) (bf : List Nat), p.bitfield = some bf →
      index / 8 ≥ bf.length → p.hasPiece index = false) ∧
    (∀ (index : Nat) (p : Peer), p.bitfield = none → p.setPiece index = p) ∧
    (∀ (index : Nat) (p : Peer) (bf : List Nat), p.bitfield = some bf →
      index / 8 ≥ bf.length → p.setPiece index = p) := by
  refine ⟨fun _ => rfl, fun index bf h => ?_, fun index p hb => ?_, fun index p bf hb h => ?_,
    fun index p hb => ?_, fun index p bf hb h => ?_⟩
  · simp [peerHasPiece, h]
  · simp [Peer.hasPiece, hb]
  · simp [Peer.hasPiece, hb, h]
  · simp [Peer.setPiece, hb]
  · simp [Peer.setPiece, hb, h]

/-- Witness for C10 at a one-byte bitfield and the first out-of-range index. -/
theorem c10_bitfield_totality_witness :
    peerHasPiece 8 (some [255]) = false ∧
    (Peer.setPiece ⟨1, true, true, false, false, some [255]⟩ 8) =
      ⟨1, true, true, false, false, some [255]⟩ :=
  ⟨c10_bitfield_totality.2.1 8 [255] (by decide),
   c10_bitfield_totality.2.2.2.2.2 8 ⟨1, true, true, false, false, some [255]⟩ [255] rfl
     (by decide)⟩

/-! ## Request ledger (part_005, `RequestManager`)

Go maps become association lists: assignment prepends the new binding and
drops any previous binding of the same key; a read of a missing key yields the
zero value.  Peer IDs (`[20]byte`, used through their string form as map keys)
are modelled as `Nat`.  The `Requested time.Time` field of `Request` is issue
time, consulted only by the timeout sweep, which no claim covers; it is
omitted. -/

/-- `Request` from internal/pieces/piece.go (sans issue time, see above). -/
structure GoRequest where
  pieceIndex : Nat
  begin_ : Nat
  length : Nat
  peerID : Nat
  deriving DecidableEq, Repr

/-- Go map assignment on an association list: overwrite the key's binding. -/
def mapSet {κ β : Type} [DecidableEq κ] (l : List (κ × β)) (k : κ) (v : β) : List (κ × β) :=
  (k, v) :: l.filter (fun kv => kv.1 ≠ k)

/-- Go map deletion. -/
def mapDel {κ β : Type} [DecidableEq κ] (l : List (κ × β)) (k : κ) : List (κ × β) :=
  l.filter (fun kv => kv.1 ≠ k)

/-- Go map read with zero value 0 for a missing key. -/
def mapGetN {κ : Type} [DecidableEq κ] (l : List (κ × Nat)) (k : κ) : Nat :=
  ((l.find? (fun kv => kv.1 == k)).map (fun kv => kv.2)).getD 0

/-- Go map membership test. -/
def mapHasKey {κ β : Type} [DecidableEq κ] (l : List (κ × β)) (k : κ) : Bool :=
  l.any (fun kv => kv.1 == k)

/-- Number of stored bindings of a key. -/
def keyCount {κ β : Type} [DecidableEq κ] (l : List (κ × β)) (k : κ) : Nat :=
  (l.filter (fun kv => kv.1 == k)).length

/-- `RequestManager` from part_005: outstanding requests keyed by
`(peer, piece, begin)` plus a per-peer count used for the capacity check. -/
structure RequestManager where
  activeRequests : List ((Nat × Nat × Nat) × GoRequest)
  peerRequests : List (Nat × Nat)
  maxRequests : Nat
  deriving DecidableEq, Repr

/-- `NewRequestManager`. -/
def newRequestManager (maxRequestsPerPeer : Nat) : RequestManager :=
  { activeRequests := [], peerRequests := [], maxRequests := maxRequestsPerPeer }

/-- `CanRequestFromPeer`: the peer's outstanding count is below the
maximum. -/
def canRequestFromPeer (rm : RequestManager) (peerID : Nat) : Bool :=
  decide (mapGetN rm.peerRequests peerID < rm.maxRequests)

/-- `AddRequest` from part_005: reject when the peer is at capacity, otherwise
store the request under its `(peer, piece, begin)` key — overwriting any
existing binding, the source performs no duplicate-key check — and increment
the peer's count. -/
def addRequest (rm : RequestManager) (peerID pieceIndex begin_ length : Nat) :
    RequestManager × Option String :=
  if mapGetN rm.peerRequests peerID ≥ rm.maxRequests then
    (rm, some "peer has too many active requests")
  else
    ({ rm with
        activeRequests := mapSet rm.activeRequests (peerID, pieceIndex, begin_)
          ⟨pieceIndex, begin_, length, peerID⟩
        peerRequests := mapSet rm.peerRequests peerID
          (mapGetN rm.peerRequests peerID + 1) }, none)

/-- `RemoveRequest` from part_005: when the key is present, drop the entry and
decrement the peer's count, deleting the count entry when it reaches zero (the
Go test is `<= 0` on an `int`; under the ledger's own discipline the count of
a peer with a stored entry is at least one, so the `Nat` form coincides). -/
def removeRequest (rm : RequestManager) (peerID pieceIndex begin_ : Nat) : RequestManager :=
  if mapHasKey rm.activeRequests (peerID, pieceIndex, begin_) then
    let c := mapGetN rm.peerRequests peerID - 1
    { rm with
      activeRequests := mapDel rm.activeRequests (peerID, pieceIndex, begin_)
      peerRequests :=
        if c = 0 then mapDel rm.peerRequests peerID else mapSet rm.peerRequests peerID c }
  else rm

/-- `ClearPeerRequests` from part_005: drop every request whose stored
`PeerID` is the given peer, and the peer's count entry. -/
def clearPeerRequests (rm : RequestManager) (peerID : Nat) : RequestManager :=
  { rm with
    activeRequests := rm.activeRequests.filter (fun kv => kv.2.peerID ≠ peerID)
    peerRequests := mapDel rm.peerRequests peerID }

/-- Counterexample to C4 as stated: with an entry for `(peer 7, piece 0,
offset 0)` already stored, a second `AddRequest` for the same key does not
fail — it returns no error, overwrites the entry, and still increments the
peer's count to 2, so the ledger and the per-peer counts do change. -/
theorem c4_insert_counterexample :
    mapHasKey ((addRequest (newRequestManager 5) 7 0 0 16384).1).activeRequests (7, 0, 0) = true ∧
    (addRequest (addRequest (newRequestManager 5) 7 0 0 16384).1 7 0 0 16384).2 = none ∧
    ((addRequest (addRequest (newRequestManager 5) 7 0 0 16384).1 7 0 0 16384).1
      ≠ (addRequest (newRequestManager 5) 7 0 0 16384).1) ∧
    mapGetN ((addRequest (addRequest (newRequestManager 5) 7 0 0 16384).1 7 0 0
      16384).1).peerRequests 7 = 2 ∧
    keyCount ((addRequest (addRequest (newRequestManager 5) 7 0 0 16384).1 7 0 0
      16384).1).activeRequests (7, 0, 0) = 1 := by
  decide

theorem keyCount_mapSet {κ β : Type} [DecidableEq κ] (l : List (κ × β)) (k : κ) (v : β) :
    keyCount (mapSet l k v) k = 1 := by
  unfold keyCount mapSet
  rw [List.filter_cons_of_pos (by simp)]
  have : (l.filter (fun kv => kv.1 ≠ k)).filter (fun kv => kv.1 == k) = [] := by
    rw [List.filter_eq_nil_iff]
    intro a ha
    have := List.of_mem_filter ha
    simp at this ⊢
    exact this
  rw [this]
  rfl

/-- C4, amended to the code: `AddRequest` fails — returning an error with the
ledger and counts untouched — exactly when the peer's outstanding count has
reached the per-peer maximum (5 at the call site); otherwise it succeeds even
when the `(peer, piece, offset)` key is already present, storing the request
as the key's unique binding (overwriting any previous one) and incrementing
the peer's count by one, so the count may exceed the number of distinct
outstanding keys. -/
theorem c4_insert_amended (rm : RequestManager) (peerID pieceIndex begin_ length : Nat) :
    (mapGetN rm.peerRequests peerID ≥ rm.maxRequests →
      addRequest rm peerID pieceIndex begin_ length =
        (rm, some "peer has too many active requests")) ∧
    (mapGetN rm.peerRequests peerID < rm.maxRequests →
      (addRequest rm peerID pieceIndex begin_ length).2 = none ∧
      (addRequest rm peerID pieceIndex begin_ length).1.activeRequests =
        mapSet rm.activeRequests (peerID, pieceIndex, begin_)
          ⟨pieceIndex, begin_, length, peerID⟩ ∧
      mapGetN (addRequest rm peerID pieceIndex begin_ length).1.peerRequests peerID =
        mapGetN rm.peerRequests peerID + 1 ∧
      keyCount (addRequest rm peerID pieceIndex begin_ length).1.activeRequests
        (peerID, pieceIndex, begin_) = 1) := by
  constructor
  · intro hge
    rw [addRequest, if_pos hge]
  · intro hlt
    rw [addRequest, if_neg (by omega)]
    refine ⟨rfl, rfl, ?_, keyCount_mapSet _ _ _⟩
    simp [mapSet, mapGetN]

/-- A ledger with peer 7 at its capacity of five outstanding requests. -/
def rmAtCapacity : RequestManager :=
  (addRequest (addRequest (addRequest (addRequest (addRequest
    (newRequestManager 5) 7 0 0 1).1 7 0 16384 1).1 7 0 32768 1).1 7 0 49152 1).1
    7 0 65536 1).1

/-- Witness for C4 (amended): at capacity 5 the sixth insert for peer 7 is
rejected with the ledger unchanged. -/
theorem c4_insert_amended_witness :
    addRequest rmAtCapacity 7 1 0 1 =
      (rmAtCapacity, some "peer has too many active requests") :=
  (c4_insert_amended rmAtCapacity 7 1 0 1).1 (by decide)

/-! ## Manager operations: piece selection and piece-message handling -/

/-- `(*Manager).isPieceAvailable`: a piece the peer has that is neither
complete nor pending. -/
def isPieceAvailable (m : Manager) (index : Nat) (peerBitfield : Option (List Nat)) : Bool :=
  if index ∈ m.completePieces then false
  else if index ∈ m.pendingPieces then false
  else if ¬peerHasPiece index peerBitfield then false
  else true

/-- `(*Manager).getRandomAvailablePiece`: collect the available piece indices
and pick one at random, marking it pending.  `rand.Intn(len(available))` is
resolved by the ambient `pick` parameter reduced into range; the result is the
chosen piece index (the source returns the `*Piece` at that index). -/
def getRandomAvailablePiece (m : Manager) (peerBitfield : Option (List Nat)) (pick : Nat) :
    Manager × Option Nat :=
  let available := (List.range m.totalPieces).filter (fun i => isPieceAvailable m i peerBitfield)
  if available.length = 0 then (m, none)
  else
    let index := available.getD (pick % available.length) 0
    ({ m with pendingPieces := List.insert index m.pendingPieces }, some index)

/-- `(*Manager).getRarestPiece`: the source's "simplified" rarest-first — the
first available piece index in increasing order, marked pending. -/
def getRarestPiece (m : Manager) (peerBitfield : Option (List Nat)) : Manager × Option Nat :=
  match (List.range m.totalPieces).find? (fun i => isPieceAvailable m i peerBitfield) with
  | some i => ({ m with pendingPieces := List.insert i m.pendingPieces }, some i)
  | none => (m, none)

/-- `(*Manager).GetPieceToRequest`: random pick while nothing has been
downloaded, the simplified rarest-first afterwards. -/
def getPieceToRequest (m : Manager) (peerBitfield : Option (List Nat)) (pick : Nat) :
    Manager × Option Nat :=
  if m.downloaded = 0 then getRandomAvailablePiece m peerBitfield pick
  else getRarestPiece m peerBitfield

/-- `(*Manager).HandlePieceMessage` from part_006, with `sha1.Sum` abstracted
as `h` and the file writer's outcome as `writeOk`.  Returns the updated
manager, the Go error value, and — pure instrumentation for stating reset
properties, not part of the source — whether the call reset the piece
(validation failure or write failure after full assembly).
`cleanupPieceRequests`, which the source implements by matching the string
key prefix "&lt;pieceIndex&gt;:", is the filter dropping every request key
whose piece component is `pieceIndex`. -/
def hpmAux (h : List Nat → List Nat) (writeOk : Bool) (m : Manager)
    (pieceIndex begin_ : Nat) (data : List Nat) : Manager × Option String × Bool :=
  let m1 := { m with requests := m.requests.filter (fun kv => kv ≠ (pieceIndex, begin_)) }
  if pieceIndex ≥ m1.pieces.length then (m1, some "invalid piece index", false)
  else
    let piece := m1.pieces.getD pieceIndex default
    if pieceIsComplete piece then (m1, none, false)
    else
      let pr := setBlock piece begin_ data
      let m2 := { m1 with pieces := m1.pieces.set pieceIndex pr.1 }
      if pr.2 ≠ none then (m2, some "failed to set block", false)
      else if pieceIsComplete pr.1 then
        if validate h pr.1 then
          if writeOk then
            ({ m2 with
                completePieces := List.insert pieceIndex m2.completePieces
                downloaded := m2.downloaded + 1
                downloadedBytes := m2.downloadedBytes + pr.1.length
                pendingPieces := m2.pendingPieces.filter (fun i => i ≠ pieceIndex) }, none, false)
          else
            ({ m2 with
                pieces := m2.pieces.set pieceIndex (resetPiece pr.1)
                pendingPieces := m2.pendingPieces.filter (fun i => i ≠ pieceIndex) },
              some "failed to write piece to file", true)
        else
          ({ m2 with
              pieces := m2.pieces.set pieceIndex (resetPiece pr.1)
              requests := m2.requests.filter (fun kv => kv.1 ≠ pieceIndex)
              pendingPieces := m2.pendingPieces.filter (fun i => i ≠ pieceIndex) }, none, true)
      else (m2, none, false)

/-- `HandlePieceMessage` proper: manager and Go error value. -/
def handlePieceMessage (h : List Nat → List Nat) (writeOk : Bool) (m : Manager)
    (pieceIndex begin_ : Nat) (data : List Nat) : Manager × Option String :=
  ((hpmAux h writeOk m pieceIndex begin_ data).1, (hpmAux h writeOk m pieceIndex begin_ data).2.1)

/-- C2.  When the block delivered by `HandlePieceMessage` completes a piece
whose buffer hash does not match the expected hash, the piece is reset: its
bitmap is cleared, its buffer re-zeroed, its `Complete` flag dropped, it is
removed from the pending set and not marked completed (the completed set is
unchanged), the call reports no error to the peer, and the piece is available
for re-download by any peer that has it. -/
theorem c2_hash_mismatch_resets (h : List Nat → List Nat) (writeOk : Bool) (m : Manager)
    (pieceIndex begin_ : Nat) (data : List Nat)
    (hidx : pieceIndex < m.pieces.length)
    (hnotdone : pieceIsComplete (m.pieces.getD pieceIndex default) = false)
    (hok : (setBlock (m.pieces.getD pieceIndex default) begin_ data).2 = none)
    (hfull : pieceIsComplete (setBlock (m.pieces.getD pieceIndex default) begin_ data).1 = true)
    (hbad : validate h (setBlock (m.pieces.getD pieceIndex default) begin_ data).1 = false) :
    (∀ b ∈ ((hpmAux h writeOk m pieceIndex begin_ data).1.pieces.getD pieceIndex
      default).downloaded, b = false) ∧
    ((hpmAux h writeOk m pieceIndex begin_ data).1.pieces.getD pieceIndex default).data =
      List.replicate ((hpmAux h writeOk m pieceIndex begin_ data).1.pieces.getD pieceIndex
        default).length 0 ∧
    ((hpmAux h writeOk m pieceIndex begin_ data).1.pieces.getD pieceIndex
      default).complete = false ∧
    pieceIndex ∉ (hpmAux h writeOk m pieceIndex begin_ data).1.pendingPieces ∧
    (hpmAux h writeOk m pieceIndex begin_ data).1.completePieces = m.completePieces ∧
    (hpmAux h writeOk m pieceIndex begin_ data).2.1 = none ∧
    (∀ bf : Option (List Nat), peerHasPiece pieceIndex bf = true →
      pieceIndex ∉ m.completePieces →
      isPieceAvailable (hpmAux h writeOk m pieceIndex begin_ data).1 pieceIndex bf = true) := by
  have hres : hpmAux h writeOk m pieceIndex begin_ data =
      let m1 := { m with requests := m.requests.filter (fun kv => kv ≠ (pieceIndex, begin_)) }
      let pr := setBlock (m.pieces.getD pieceIndex default) begin_ data
      let m2 := { m1 with pieces := m1.pieces.set pieceIndex pr.1 }
      ({ m2 with
          pieces := m2.pieces.set pieceIndex (resetPiece pr.1)
          requests := m2.requests.filter (fun kv => kv.1 ≠ pieceIndex)
          pendingPieces := m2.pendingPieces.filter (fun i => i ≠ pieceIndex) }, none, true) := by
    rw [hpmAux]
    dsimp only
    rw [if_neg (by omega), if_neg (by simpa using hnotdone), if_neg (by simpa using hok),
      if_pos hfull, if_neg (by simpa using hbad)]
  rw [hres]
  dsimp only
  have hget : ((m.pieces.set pieceIndex
      (setBlock (m.pieces.getD pieceIndex default) begin_ data).1).set pieceIndex
      (resetPiece (setBlock (m.pieces.getD pieceIndex default) begin_ data).1)).getD
      pieceIndex default =
      resetPiece (setBlock (m.pieces.getD pieceIndex default) begin_ data).1 :=
    getD_set_self (by simpa using hidx)
  rw [hget]
  refine ⟨?_, rfl, rfl, ?_, rfl, rfl, ?_⟩
  · intro b hb
    rcases List.mem_map.mp hb with ⟨x, _, rfl⟩
    rfl
  · intro hmem
    rcases List.mem_filter.mp hmem with ⟨_, hne⟩
    simp at hne
  · intro bf hbf hnc
    rw [isPieceAvailable, if_neg hnc, if_neg, if_neg (by simp [hbf])]
    intro hmem
    rcases List.mem_filter.mp hmem with ⟨_, hne⟩
    simp at hne

/-- The abstract hash used by the C2 witness: constant, never equal to the
expected hash `[0]` below. -/
def hashW : List Nat → List Nat := fun _ => [9]

/-- A two-piece manager (piece length 5) for the C2 witness. -/
def mgrW : Manager := newManager [[0], [1]] 5 10

/-- Witness for C2: delivering the single block of piece 0 with a mismatching
hash resets the piece, leaves it unpended and re-downloadable. -/
theorem c2_hash_mismatch_resets_witness :
    ((hpmAux hashW true mgrW 0 0 [1, 2, 3, 4, 5]).1.pieces.getD 0 default).complete = false ∧
    0 ∉ (hpmAux hashW true mgrW 0 0 [1, 2, 3, 4, 5]).1.pendingPieces ∧
    isPieceAvailable (hpmAux hashW true mgrW 0 0 [1, 2, 3, 4, 5]).1 0 (some [192]) = true := by
  have hc := c2_hash_mismatch_resets hashW true mgrW 0 0 [1, 2, 3, 4, 5]
    (by decide) (by decide) (by decide) (by decide) (by decide)
  exact ⟨hc.2.2.1, hc.2.2.2.1, hc.2.2.2.2.2.2 (some [192]) (by decide) (by decide)⟩

/-! ## Steady-mode piece selection (C7) -/

/-- The spec's steady-mode selection, following its words: among candidate
pieces the peer has that are neither complete nor pending, those whose
peer-availability count across all connected peers is smallest (the set of
legal outcomes of the min-plus-uniform-tie-break rule). -/
def specSteadyPicks (availability : List Nat) (m : Manager) (bf : Option (List Nat)) :
    List Nat :=
  let candidates := (List.range m.totalPieces).filter (fun i => isPieceAvailable m i bf)
  candidates.filter (fun i =>
    candidates.all (fun j => availability.getD i 0 ≤ availability.getD j 0))

/-- The abstract hash making piece 2 of the C7 manager validate. -/
def hashSeven : List Nat → List Nat := fun _ => [7]

/-- A three-piece manager in steady mode: piece 2 was downloaded and
validated, so `downloaded = 1`. -/
def mgrSteady : Manager :=
  (hpmAux hashSeven true (newManager [[1], [2], [7]] 4 12) 2 0 [9, 9, 9, 9]).1

/-- Counterexample to C7 as stated: in steady mode, with candidates 0 and 1
and availability counts [5, 1, 9], the code returns piece 0 — the first
available index — although the only smallest-availability candidate is piece
1; the selection consults no availability data at all. -/
theorem c7_steady_counterexample :
    mgrSteady.downloaded = 1 ∧
    (getPieceToRequest mgrSteady (some [224]) 0).2 = some 0 ∧
    specSteadyPicks [5, 1, 9] mgrSteady (some [224]) = [1] ∧
    some 0 ≠ some 1 := by
  decide

theorem find?_range_least (n : Nat) (p : Nat → Bool) (i : Nat)
    (h : (List.range n).find? p = some i) :
    i < n ∧ p i = true ∧ ∀ j, j < i → p j = false := by
  induction n with
  | zero => simp [List.range_zero] at h
  | succ n ih =>
    rw [List.range_succ, List.find?_append] at h
    rcases hf : (List.range n).find? p with _ | j
    · rw [hf, Option.none_or] at h
      have hpn : p n = true ∧ i = n := by
        by_cases hc : p n = true
        · refine ⟨hc, ?_⟩
          simp [List.find?, hc] at h
          omega
        · simp [List.find?, hc] at h
      obtain ⟨hpc, hieq⟩ := hpn
      subst hieq
      refine ⟨by omega, hpc, fun j hj => ?_⟩
      have := List.find?_eq_none.mp hf j (by simp; omega)
      simpa using this
    · rw [hf, Option.or_some] at h
      obtain rfl : j = i := by injection h
      obtain ⟨h1, h2, h3⟩ := ih hf
      exact ⟨by omega, h2, h3⟩

/-- C7, amended to the code: in steady mode (`downloaded > 0`) the selection
ignores availability counts and randomness entirely — it returns the
lowest-indexed piece among those the peer has that are neither complete nor
pending (marking it pending), and returns nothing iff no piece is
available. -/
theorem c7_steady_amended (m : Manager) (bf : Option (List Nat)) (pick : Nat)
    (hsteady : m.downloaded ≠ 0) :
    ((getPieceToRequest m bf pick).2 = none →
      ∀ i, i < m.totalPieces → isPieceAvailable m i bf = false) ∧
    (∀ i, (getPieceToRequest m bf pick).2 = some i →
      i < m.totalPieces ∧ isPieceAvailable m i bf = true ∧
      (∀ j, j < i → isPieceAvailable m j bf = false) ∧
      (getPieceToRequest m bf pick).1.pendingPieces = List.insert i m.pendingPieces) := by
  rw [getPieceToRequest, if_neg hsteady]
  unfold getRarestPiece
  rcases hf : (List.range m.totalPieces).find? (fun i => isPieceAvailable m i bf) with _ | i
  · refine ⟨fun _ i hi => ?_, fun i hsome => by simp at hsome⟩
    have := List.find?_eq_none.mp hf i (by simp [hi])
    simpa using this
  · obtain ⟨h1, h2, h3⟩ := find?_range_least _ _ _ hf
    refine ⟨fun hnone => by simp at hnone, fun j hsome => ?_⟩
    obtain rfl : i = j := by injection hsome
    exact ⟨h1, h2, fun k hk => h3 k hk, rfl⟩

/-- Witness for C7 (amended): in the steady-mode manager above, the selection
returns piece 0, the least available index. -/
theorem c7_steady_amended_witness :
    0 < mgrSteady.totalPieces ∧ isPieceAvailable mgrSteady 0 (some [224]) = true ∧
    (∀ j, j < 0 → isPieceAvailable mgrSteady j (some [224]) = false) ∧
    (getPieceToRequest mgrSteady (some [224]) 0).1.pendingPieces =
      List.insert 0 mgrSteady.pendingPieces :=
  (c7_steady_amended mgrSteady (some [224]) 0 (by decide)).2 0 (by decide)

/-! ## Piece-to-file mapper (internal/file/mapper.go)

Arithmetic here is over `Int`, matching the Go `int64` fields.  `Int`
division in Lean is Euclidean, which agrees with Go's truncated division on
the non-negative operands the hypotheses guarantee.  The `Path` string fields
carry no arithmetic content and are omitted. -/

/-- `FileInfo` from internal/file/mapper.go: declared length and cumulative
offset in the torrent's concatenated output space. -/
structure FileInfo where
  length : Int
  offset : Int
  deriving DecidableEq, Repr

/-- `FileRange` from internal/file/mapper.go: a segment of a piece inside one
file. -/
structure FileRange where
  fileIndex : Nat
  offset : Int
  length : Int
  deriving DecidableEq, Repr, Inhabited

/-- The offset-accumulating loop of `CreateFileInfoFromTorrent` (multi-file
branch; the single-file branch produces the same single entry at offset 0). -/
def createFileInfosAux : List Int → Int → List FileInfo
  | [], _ => []
  | l :: rest, off => ⟨l, off⟩ :: createFileInfosAux rest (off + l)

/-- `CreateFileInfoFromTorrent`, keeping only lengths and offsets. -/
def createFileInfos (lengths : List Int) : List FileInfo :=
  createFileInfosAux lengths 0

/-- The file loop of `(*Mapper).calculatePieceMapping`: for each file (walked
with its index) overlapping `[pieceStart, pieceEnd)`, emit the overlap as a
`FileRange`. -/
def segsAux (pieceStart pieceEnd : Int) : Nat → List FileInfo → List FileRange
  | _, [] => []
  | idx, f :: rest =>
    (if pieceStart < f.offset + f.length ∧ pieceEnd > f.offset then
      [{ fileIndex := idx
         offset := max pieceStart f.offset - f.offset
         length := min pieceEnd (f.offset + f.length) - max pieceStart f.offset }]
    else []) ++ segsAux pieceStart pieceEnd (idx + 1) rest

/-- `(*Mapper).calculatePieceMapping`: piece interval clipped to the total
length, then the file walk. -/
def calculatePieceMapping (files : List FileInfo) (pieceLength totalLength : Int)
    (pieceIndex : Nat) : List FileRange :=
  let pieceStart := (pieceIndex : Int) * pieceLength
  let pieceEnd :=
    if pieceStart + pieceLength > totalLength then totalLength else pieceStart + pieceLength
  segsAux pieceStart pieceEnd 0 files

/-- `totalPieces` as computed by `buildFileMappings`:
`(totalLength + pieceLength - 1) / pieceLength`. -/
def totalPiecesOfMapper (pieceLength totalLength : Int) : Int :=
  (totalLength + pieceLength - 1) / pieceLength

/-- The position of a segment in the torrent's concatenated output space. -/
def globalStart (lengths : List Int) (s : FileRange) : Int :=
  (lengths.take s.fileIndex).sum + s.offset

theorem segsAux_bounds (ps pe : Int) (hpe : ps ≤ pe) (L : List Int) :
    ∀ (idx : Nat) (off : Int), (∀ l ∈ L, 0 ≤ l) →
      ∀ s ∈ segsAux ps pe idx (createFileInfosAux L off),
        idx ≤ s.fileIndex ∧ s.fileIndex < idx + L.length ∧ 0 ≤ s.offset ∧ 0 ≤ s.length ∧
        s.offset + s.length ≤ L.getD (s.fileIndex - idx) 0 := by
  induction L with
  | nil =>
    intro idx off _ s hs
    simp [createFileInfosAux, segsAux] at hs
  | cons l0 rest ih =>
    intro idx off hL s hs
    have hl0 : 0 ≤ l0 := hL l0 (List.mem_cons_self _ _)
    simp only [createFileInfosAux, segsAux] at hs
    rcases List.mem_append.mp hs with h1 | h2
    · rcases hcond : (decide (ps < off + l0 ∧ pe > off)) with _ | _
      · rw [if_neg (by simpa using hcond)] at h1
        simp at h1
      · have hc := of_decide_eq_true hcond
        rw [if_pos hc] at h1
        simp only [List.mem_singleton] at h1
        subst h1
        refine ⟨le_refl _, by simp, ?_, ?_, ?_⟩
        · simp only
          omega
        · simp only
          omega
        · simp only [Nat.sub_self, List.getD_cons_zero]
          omega
    · have hrest := ih (idx + 1) (off + l0) (fun l hl => hL l (List.mem_cons_of_mem _ hl)) s h2
      obtain ⟨g1, g2, g3, g4, g5⟩ := hrest
      refine ⟨by omega, by simp; omega, g3, g4, ?_⟩
      have hidx : s.fileIndex - idx = (s.fileIndex - (idx + 1)) + 1 := by omega
      rw [hidx, List.getD_cons_succ]
      exact g5

theorem segsAux_ne_nil_imp (ps pe : Int) (L : List Int) :
    ∀ (idx : Nat) (off : Int), (∀ l ∈ L, 0 ≤ l) →
      segsAux ps pe idx (createFileInfosAux L off) ≠ [] → pe > off := by
  induction L with
  | nil =>
    intro idx off _ hne
    simp [createFileInfosAux, segsAux] at hne
  | cons l0 rest ih =>
    intro idx off hL hne
    have hl0 : 0 ≤ l0 := hL l0 (List.mem_cons_self _ _)
    simp only [createFileInfosAux, segsAux] at hne
    rcases hcond : (decide (ps < off + l0 ∧ pe > off)) with _ | _
    · rw [if_neg (by simpa using hcond), List.nil_append] at hne
      have := ih (idx + 1) (off + l0) (fun l hl => hL l (List.mem_cons_of_mem _ hl)) hne
      omega
    · exact (of_decide_eq_true hcond).2

theorem segsAux_sum (ps pe : Int) (hpe : ps ≤ pe) (L : List Int) :
    ∀ (idx : Nat) (off : Int), (∀ l ∈ L, 0 ≤ l) →
      ((segsAux ps pe idx (createFileInfosAux L off)).map FileRange.length).sum =
        max 0 (min pe (off + L.sum) - max ps off) := by
  induction L with
  | nil =>
    intro idx off _
    simp only [createFileInfosAux, segsAux, List.map_nil, List.sum_nil, List.sum_nil]
    omega
  | cons l0 rest ih =>
    intro idx off hL
    have hl0 : 0 ≤ l0 := hL l0 (List.mem_cons_self _ _)
    have hrs : 0 ≤ rest.sum := List.sum_nonneg (fun l hl => hL l (List.mem_cons_of_mem _ hl))
    simp only [createFileInfosAux, segsAux, List.map_append, List.sum_append, List.sum_cons]
    rw [ih (idx + 1) (off + l0) (fun l hl => hL l (List.mem_cons_of_mem _ hl))]
    rcases hcond : (decide (ps < off + l0 ∧ pe > off)) with _ | _
    · rw [if_neg (by simpa using hcond)]
      have hc := of_decide_eq_false hcond
      simp only [List.map_nil, List.sum_nil, zero_add]
      rw [Decidable.not_and_iff_or_not] at hc
      rcases hc with hc | hc
      · push_neg at hc
        omega
      · push_neg at hc
        omega
    · have hc := of_decide_eq_true hcond
      rw [if_pos hc]
      simp only [List.map_cons, List.map_nil, List.sum_cons, List.sum_nil, add_zero]
      obtain ⟨hc1, hc2⟩ := hc
      omega

/-- Segment-list contiguity relative to the file table: each segment is
followed by one in the next file, reaches the end of its own file, and its
successor starts at file offset 0. -/
def segChain (L : List Int) (idx : Nat) : List FileRange → Prop
  | s :: t :: rest =>
    t.fileIndex = s.fileIndex + 1 ∧ s.offset + s.length = L.getD (s.fileIndex - idx) 0 ∧
    t.offset = 0 ∧ segChain L idx (t :: rest)
  | _ => True

theorem segChain_shift (l0 : Int) (rest : List Int) (idx : Nat) :
    ∀ segs : List FileRange, (∀ s ∈ segs, idx + 1 ≤ s.fileIndex) →
      segChain rest (idx + 1) segs → segChain (l0 :: rest) idx segs := by
  intro segs
  induction segs with
  | nil => exact fun _ _ => trivial
  | cons s segs' ih =>
    cases segs' with
    | nil => exact fun _ _ => trivial
    | cons t r =>
      intro hmem hch
      obtain ⟨h1, h2, h3, h4⟩ := hch
      refine ⟨h1, ?_, h3, ih (fun x hx => hmem x (List.mem_cons_of_mem _ hx)) h4⟩
      have hs : idx + 1 ≤ s.fileIndex := hmem s (List.mem_cons_self _ _)
      have hidx : s.fileIndex - idx = (s.fileIndex - (idx + 1)) + 1 := by omega
      rw [hidx, List.getD_cons_succ]
      exact h2

theorem segsAux_chain (ps pe : Int) (hpe : ps ≤ pe) (L : List Int) :
    ∀ (idx : Nat) (off : Int), (∀ l ∈ L, 0 ≤ l) →
      segChain L idx (segsAux ps pe idx (createFileInfosAux L off)) := by
  induction L with
  | nil => intro idx off _; trivial
  | cons l0 rest ih =>
    intro idx off hL
    have hl0 : 0 ≤ l0 := hL l0 (List.mem_cons_self _ _)
    have hLr : ∀ l ∈ rest, 0 ≤ l := fun l hl => hL l (List.mem_cons_of_mem _ hl)
    simp only [createFileInfosAux, segsAux]
    rcases hcond : (decide (ps < off + l0 ∧ pe > off)) with _ | _
    · rw [if_neg (by simpa using hcond), List.nil_append]
      exact segChain_shift l0 rest idx _
        (fun s hs => (segsAux_bounds ps pe hpe rest (idx + 1) (off + l0) hLr s hs).1)
        (ih (idx + 1) (off + l0) hLr)
    · have hc := of_decide_eq_true hcond
      rw [if_pos hc, List.singleton_append]
      rcases hsegs : segsAux ps pe (idx + 1) (createFileInfosAux rest (off + l0)) with _ | ⟨t, r⟩
      · trivial
      · cases rest with
        | nil => simp [createFileInfosAux, segsAux] at hsegs
        | cons l1 rest' =>
          have hl1 : 0 ≤ l1 := hLr l1 (List.mem_cons_self _ _)
          have hpe1 : pe > off + l0 :=
            segsAux_ne_nil_imp ps pe (l1 :: rest') (idx + 1) (off + l0) hLr
              (by rw [hsegs]; simp)
          have hc1 : ps < (off + l0) + l1 ∧ pe > off + l0 := ⟨by omega, hpe1⟩
          have hunfold : segsAux ps pe (idx + 1) (createFileInfosAux (l1 :: rest') (off + l0)) =
              ({ fileIndex := idx + 1
                 offset := max ps (off + l0) - (off + l0)
                 length := min pe ((off + l0) + l1) - max ps (off + l0) } : FileRange) ::
                segsAux ps pe (idx + 2) (createFileInfosAux rest' ((off + l0) + l1)) := by
            simp only [createFileInfosAux, segsAux]
            rw [if_pos hc1, List.singleton_append]
          rw [hsegs] at hunfold
          injection hunfold with ht hr
          refine ⟨?_, ?_, ?_, ?_⟩
          · rw [ht]
          · simp only [Nat.sub_self, List.getD_cons_zero]
            omega
          · rw [ht]
            simp only
            omega
          · apply segChain_shift l0 (l1 :: rest') idx
            · intro s hs
              exact (segsAux_bounds ps pe hpe (l1 :: rest') (idx + 1) (off + l0) hLr s
                (hsegs ▸ hs)).1
            · have hch := ih (idx + 1) (off + l0) hLr
              rw [hsegs] at hch
              exact hch

theorem segChain_chain'_fileIndex (L : List Int) (idx : Nat) :
    ∀ segs : List FileRange, segChain L idx segs →
      List.Chain' (fun s t : FileRange => s.fileIndex < t.fileIndex) segs := by
  intro segs
  induction segs with
  | nil => exact fun _ => List.chain'_nil
  | cons s segs' ih =>
    cases segs' with
    | nil => exact fun _ => List.chain'_singleton s
    | cons t r =>
      intro h
      obtain ⟨h1, _, _, h4⟩ := h
      exact List.chain'_cons.mpr ⟨by omega, ih h4⟩

theorem segChain_chain'_global (L : List Int) :
    ∀ segs : List FileRange, segChain L 0 segs → (∀ s ∈ segs, s.fileIndex < L.length) →
      List.Chain' (fun s t : FileRange =>
        globalStart L t = globalStart L s + s.length) segs := by
  intro segs
  induction segs with
  | nil => exact fun _ _ => List.chain'_nil
  | cons s segs' ih =>
    cases segs' with
    | nil => exact fun _ _ => List.chain'_singleton s
    | cons t r =>
      intro h hmem
      obtain ⟨h1, h2, h3, h4⟩ := h
      refine List.chain'_cons.mpr ⟨?_, ih h4 (fun x hx => hmem x (List.mem_cons_of_mem _ hx))⟩
      have hfs : s.fileIndex < L.length := hmem s (List.mem_cons_self _ _)
      rw [Nat.sub_zero] at h2
      rw [globalStart, globalStart, h3, h1, add_zero,
        List.sum_take_succ _ _ hfs, ← List.getD_eq_getElem L 0 hfs, ← h2]
      ring

theorem lt_totalPieces_mul_lt (pieceLength totalLength : Int) (hpl : 0 < pieceLength)
    (k : Int) (hk : k < totalPiecesOfMapper pieceLength totalLength) :
    k * pieceLength < totalLength := by
  have hdm := Int.ediv_add_emod (totalLength + pieceLength - 1) pieceLength
  have hr0 : 0 ≤ (totalLength + pieceLength - 1) % pieceLength :=
    Int.emod_nonneg _ (by omega)
  have hrlt : (totalLength + pieceLength - 1) % pieceLength < pieceLength :=
    Int.emod_lt_of_pos _ hpl
  rw [totalPiecesOfMapper] at hk
  have h1 : k * pieceLength ≤
      ((totalLength + pieceLength - 1) / pieceLength - 1) * pieceLength :=
    mul_le_mul_of_nonneg_right (by omega) (by omega)
  nlinarith [h1, hdm, hr0, hrlt]

/-- C1.  For a consistent file table (non-negative lengths, cumulative
offsets, total length the sum of the lengths) and a piece index below the
mapper's piece count, the computed segment list is strictly ordered by file
index, contiguous in output space (each segment starts where the previous one
ended), every segment lies within its file's declared length, and the segment
lengths sum to the piece's length: the full `pieceLength` for every piece
before the last, and `totalLength - pieceIndex * pieceLength` (which is at
most `pieceLength`) for the last. -/
theorem c1_piece_mapping_segments (lengths : List Int) (pieceLength totalLength : Int)
    (pieceIndex : Nat)
    (hlen : ∀ l ∈ lengths, 0 ≤ l) (hpl : 0 < pieceLength)
    (htot : totalLength = lengths.sum)
    (hp : (pieceIndex : Int) < totalPiecesOfMapper pieceLength totalLength) :
    List.Chain' (fun s t : FileRange => s.fileIndex < t.fileIndex)
      (calculatePieceMapping (createFileInfos lengths) pieceLength totalLength pieceIndex) ∧
    List.Chain' (fun s t : FileRange => globalStart lengths t = globalStart lengths s + s.length)
      (calculatePieceMapping (createFileInfos lengths) pieceLength totalLength pieceIndex) ∧
    (∀ s ∈ calculatePieceMapping (createFileInfos lengths) pieceLength totalLength pieceIndex,
      s.fileIndex < lengths.length ∧ 0 ≤ s.offset ∧ 0 ≤ s.length ∧
      s.offset + s.length ≤ lengths.getD s.fileIndex 0) ∧
    ((calculatePieceMapping (createFileInfos lengths) pieceLength totalLength
        pieceIndex).map FileRange.length).sum =
      min pieceLength (totalLength - (pieceIndex : Int) * pieceLength) ∧
    ((pieceIndex : Int) + 1 < totalPiecesOfMapper pieceLength totalLength →
      ((calculatePieceMapping (createFileInfos lengths) pieceLength totalLength
          pieceIndex).map FileRange.length).sum = pieceLength) := by
  have hps0 : (0 : Int) ≤ (pieceIndex : Int) * pieceLength :=
    mul_nonneg (by exact_mod_cast Nat.zero_le _) (by omega)
  have hlt : (pieceIndex : Int) * pieceLength < totalLength :=
    lt_totalPieces_mul_lt pieceLength totalLength hpl _ hp
  have hpe : (pieceIndex : Int) * pieceLength ≤
      (if (pieceIndex : Int) * pieceLength + pieceLength > totalLength then totalLength
        else (pieceIndex : Int) * pieceLength + pieceLength) := by
    split <;> omega
  have hmap : calculatePieceMapping (createFileInfos lengths) pieceLength totalLength
      pieceIndex = segsAux ((pieceIndex : Int) * pieceLength)
        (if (pieceIndex : Int) * pieceLength + pieceLength > totalLength then totalLength
          else (pieceIndex : Int) * pieceLength + pieceLength) 0
        (createFileInfosAux lengths 0) := rfl
  rw [hmap]
  set ps : Int := (pieceIndex : Int) * pieceLength with hps
  set pe : Int := (if ps + pieceLength > totalLength then totalLength
    else ps + pieceLength) with hpedef
  have hchain := segsAux_chain ps pe hpe lengths 0 0 hlen
  have hbounds := segsAux_bounds ps pe hpe lengths 0 0 hlen
  have hsum := segsAux_sum ps pe hpe lengths 0 0 hlen
  refine ⟨segChain_chain'_fileIndex lengths 0 _ hchain,
    segChain_chain'_global lengths _ hchain
      (fun s hs => by simpa using (hbounds s hs).2.1), fun s hs => ?_, ?_, ?_⟩
  · obtain ⟨_, g2, g3, g4, g5⟩ := hbounds s hs
    rw [Nat.sub_zero] at g5
    exact ⟨by simpa using g2, g3, g4, g5⟩
  · rw [hsum]
    rw [zero_add, ← htot]
    have hpele : pe ≤ totalLength := by
      rw [hpedef]
      split <;> omega
    have hpege : pe ≥ ps := hpe
    rw [hpedef]
    split <;> omega
  · intro hlast
    have hlt2 : ps + pieceLength ≤ totalLength := by
      have := lt_totalPieces_mul_lt pieceLength totalLength hpl ((pieceIndex : Int) + 1) hlast
      rw [hps]
      nlinarith [this]
    rw [hsum, zero_add, ← htot, hpedef]
    rw [if_neg (by omega)]
    omega

/-- Witness for C1: the spec's S6 scenario — files of lengths 100 and 50,
piece length 80, piece 1 spanning the file boundary. -/
theorem c1_piece_mapping_segments_witness :
    ((calculatePieceMapping (createFileInfos [100, 50]) 80 150 1).map
      FileRange.length).sum = min 80 (150 - 1 * 80) ∧
    calculatePieceMapping (createFileInfos [100, 50]) 80 150 1 =
      [⟨0, 80, 20⟩, ⟨1, 0, 50⟩] :=
  ⟨(c1_piece_mapping_segments [100, 50] 80 150 1 (by decide) (by decide) (by decide)
      (by decide)).2.2.2.1, by decide⟩

/-! ## File allocation (the `Allocator` in the bencode source file) and C8 -/

/-- `(*Allocator).allocateSparse`, the default strategy used by
`Writer.Initialize` for every declared file.  The operating system is
idealized: `os.Create` always succeeds (leaving a 0-byte file on disk),
`Seek(size-1, 0)` fails exactly when its target offset `size - 1` is
negative (lseek rejects a negative absolute offset with EINVAL), and `Write`
succeeds.  The boolean records whether `os.Create` ran, i.e. whether the file
exists on disk on return; the option is the Go error. -/
def allocateSparse (size : Int) : Bool × Option String :=
  if size < 0 then (false, some "invalid size")
  else if size - 1 < 0 then (true, some "failed to seek")
  else (true, none)

/-- C8 evaluation.  For a zero-length file the sparse allocator seeks to
offset −1 and returns an error (so `Writer.Initialize`, which propagates any
`AllocateFile` error, fails for the whole torrent — even though the empty
file itself was created), and the mapper emits a zero-length segment for a
zero-length file lying strictly inside a piece, contradicting the claim on
both counts. -/
theorem c8_zero_length_file_behavior :
    allocateSparse 0 = (true, some "failed to seek") ∧
    calculatePieceMapping (createFileInfos [16384, 0, 16384]) 32768 32768 0 =
      [⟨0, 0, 16384⟩, ⟨1, 0, 0⟩, ⟨2, 0, 16384⟩] := by
  decide

/-! ## The engine's planning/delivery loop as a transition system (C3)

The download loop composes the embedded operations: a planning step is
`GetPieceToRequest` followed by `GetNextBlock` on the returned piece, with the
resulting block inserted into the request ledger (`AddRequest`); a delivery is
`RemoveRequest` followed by `HandlePieceMessage` (the order used by
`handlePeer`); the timeout sweep removes ledger entries; a peer disconnect
clears its ledger entries.  `rand.Intn` inside bootstrap-mode selection is
resolved by the event's `pick` parameter, which over-approximates the PRNG;
steady mode is deterministic. -/

/-- Shared engine state: the piece manager and the request ledger. -/
structure Sys where
  mgr : Manager
  rm : RequestManager
  deriving DecidableEq, Repr

/-- Engine events.  `deliver` carries the write outcome of the file store
(external nondeterminism) next to the wire data. -/
inductive Ev where
  | plan (peer : Nat) (bitfield : Option (List Nat)) (pick : Nat)
  | deliver (peer pieceIndex begin_ : Nat) (data : List Nat) (writeOk : Bool)
  | timeout (peer pieceIndex begin_ : Nat)
  | dropPeer (peer : Nat)

/-- One engine step. -/
def step (h : List Nat → List Nat) (s : Sys) : Ev → Sys
  | .plan peer bf pick =>
    let res := getPieceToRequest s.mgr bf pick
    match res.2 with
    | some i =>
      match getNextBlock (s.mgr.pieces.getD i default) with
      | some b => ⟨res.1, (addRequest s.rm peer i b.begin_ b.length).1⟩
      | none => ⟨res.1, s.rm⟩
    | none => ⟨res.1, s.rm⟩
  | .deliver peer pieceIndex begin_ data writeOk =>
    ⟨(hpmAux h writeOk s.mgr pieceIndex begin_ data).1,
      removeRequest s.rm peer pieceIndex begin_⟩
  | .timeout peer pieceIndex begin_ => ⟨s.mgr, removeRequest s.rm peer pieceIndex begin_⟩
  | .dropPeer peer => ⟨s.mgr, clearPeerRequests s.rm peer⟩

/-- The block a planning call returns in a state: the piece selected by
`GetPieceToRequest` and the offset of its first missing block. -/
def planResult (s : Sys) (bf : Option (List Nat)) (pick : Nat) : Option (Nat × Nat) :=
  match (getPieceToRequest s.mgr bf pick).2 with
  | some i =>
    match getNextBlock (s.mgr.pieces.getD i default) with
    | some b => some (i, b.begin_)
    | none => none
  | none => none

/-- Run a trace of events. -/
def runS (h : List Nat → List Nat) : Sys → List Ev → Sys
  | s, [] => s
  | s, e :: t => runS h (step h s e) t

/-- The piece reset by a single event, if any. -/
def resetOf (h : List Nat → List Nat) (s : Sys) : Ev → List Nat
  | .deliver _ pieceIndex begin_ data writeOk =>
    if (hpmAux h writeOk s.mgr pieceIndex begin_ data).2.2 then [pieceIndex] else []
  | .plan _ _ _ => []
  | .timeout _ _ _ => []
  | .dropPeer _ => []

/-- The piece indices reset (hash-validation or write failure after full
assembly) along a trace. -/
def resetsIn (h : List Nat → List Nat) : Sys → List Ev → List Nat
  | _, [] => []
  | s, e :: t => resetOf h s e ++ resetsIn h (step h s e) t

/-- The initial engine state for a torrent. -/
def initSys (hashes : List (List Nat)) (pieceLength totalLength : Nat) : Sys :=
  ⟨newManager hashes pieceLength totalLength, newRequestManager MaxRequestsPerPeer⟩

theorem getPieceToRequest_spec (m : Manager) (bf : Option (List Nat)) (pick : Nat) :
    ((getPieceToRequest m bf pick).2 = none → (getPieceToRequest m bf pick).1 = m) ∧
    (∀ i, (getPieceToRequest m bf pick).2 = some i →
      isPieceAvailable m i bf = true ∧
      (getPieceToRequest m bf pick).1 =
        { m with pendingPieces := List.insert i m.pendingPieces }) := by
  rw [getPieceToRequest]
  split
  · rw [getRandomAvailablePiece]
    dsimp only
    split
    · exact ⟨fun _ => rfl, fun i hi => by simp at hi⟩
    · rename_i hne
      refine ⟨fun hn => by simp at hn, fun i hi => ?_⟩
      have hi' : ((List.range m.totalPieces).filter (fun j => isPieceAvailable m j bf)).getD
          (pick % ((List.range m.totalPieces).filter
            (fun j => isPieceAvailable m j bf)).length) 0 = i := by
        simpa using hi
      subst hi'
      set avail := (List.range m.totalPieces).filter (fun j => isPieceAvailable m j bf)
        with havail
      have hlt : pick % avail.length < avail.length := Nat.mod_lt _ (by omega)
      have hmem : avail.getD (pick % avail.length) 0 ∈ avail := by
        rw [List.getD_eq_getElem _ _ hlt]
        exact List.getElem_mem _
      exact ⟨List.of_mem_filter (p := fun j => isPieceAvailable m j bf) hmem, rfl⟩
  · unfold getRarestPiece
    rcases hf : (List.range m.totalPieces).find? (fun i => isPieceAvailable m i bf)
      with _ | i
    · exact ⟨fun _ => rfl, fun i hi => by simp at hi⟩
    · refine ⟨fun hn => by simp at hn, fun j hj => ?_⟩
      obtain rfl : i = j := by injection hj
      exact ⟨List.find?_some (p := fun k => isPieceAvailable m k bf) hf, rfl⟩

/-- The three possible effects of `HandlePieceMessage` on the pending and
completed sets, with the reset flag: untouched (no reset), piece completed
(moved from pending to completed, no reset), or piece reset (dropped from
pending, completed untouched). -/
theorem hpmAux_cases (h : List Nat → List Nat) (w : Bool) (m : Manager)
    (pieceIndex begin_ : Nat) (data : List Nat) :
    ((hpmAux h w m pieceIndex begin_ data).1.pendingPieces = m.pendingPieces ∧
      (hpmAux h w m pieceIndex begin_ data).1.completePieces = m.completePieces ∧
      (hpmAux h w m pieceIndex begin_ data).2.2 = false) ∨
    ((hpmAux h w m pieceIndex begin_ data).1.pendingPieces =
        m.pendingPieces.filter (fun i => i ≠ pieceIndex) ∧
      (hpmAux h w m pieceIndex begin_ data).1.completePieces =
        List.insert pieceIndex m.completePieces ∧
      (hpmAux h w m pieceIndex begin_ data).2.2 = false) ∨
    ((hpmAux h w m pieceIndex begin_ data).1.pendingPieces =
        m.pendingPieces.filter (fun i => i ≠ pieceIndex) ∧
      (hpmAux h w m pieceIndex begin_ data).1.completePieces = m.completePieces ∧
      (hpmAux h w m pieceIndex begin_ data).2.2 = true) := by
  unfold hpmAux
  dsimp only
  split
  · exact Or.inl ⟨rfl, rfl, rfl⟩
  · split
    · exact Or.inl ⟨rfl, rfl, rfl⟩
    · split
      · exact Or.inl ⟨rfl, rfl, rfl⟩
      · split
        · split
          · split
            · exact Or.inr (Or.inl ⟨rfl, rfl, rfl⟩)
            · exact Or.inr (Or.inr ⟨rfl, rfl, rfl⟩)
          · exact Or.inr (Or.inr ⟨rfl, rfl, rfl⟩)
        · exact Or.inl ⟨rfl, rfl, rfl⟩

theorem isPieceAvailable_not_pending (m : Manager) (i : Nat) (bf : Option (List Nat))
    (hav : isPieceAvailable m i bf = true) :
    i ∉ m.completePieces ∧ i ∉ m.pendingPieces := by
  rw [isPieceAvailable] at hav
  split_ifs at hav with h1 h2 h3
  exact ⟨h1, h2⟩

theorem removeRequest_subset (rm : RequestManager) (a b c : Nat) :
    ∀ kv ∈ (removeRequest rm a b c).activeRequests, kv ∈ rm.activeRequests := by
  intro kv hkv
  rw [removeRequest] at hkv
  split at hkv
  · exact List.mem_of_mem_filter hkv
  · exact hkv

theorem clearPeerRequests_subset (rm : RequestManager) (a : Nat) :
    ∀ kv ∈ (clearPeerRequests rm a).activeRequests, kv ∈ rm.activeRequests := by
  intro kv hkv
  exact List.mem_of_mem_filter hkv

theorem addRequest_entries (rm : RequestManager) (peer pi b len : Nat) :
    ∀ kv ∈ (addRequest rm peer pi b len).1.activeRequests,
      kv.1 = (peer, pi, b) ∨ kv ∈ rm.activeRequests := by
  intro kv hkv
  rw [addRequest] at hkv
  split at hkv
  · exact Or.inr hkv
  · rcases List.mem_cons.mp hkv with h | h
    · exact Or.inl (by rw [h])
    · exact Or.inr (List.mem_of_mem_filter h)

/-- Single-step preservation: a piece that is pending or complete stays
pending or complete, unless the step resets that very piece. -/
theorem step_pend_comp (h : List Nat → List Nat) (s : Sys) (e : Ev) (q : Nat)
    (hq : q ∈ s.mgr.pendingPieces ∨ q ∈ s.mgr.completePieces)
    (hnr : q ∉ resetsIn h s [e]) :
    q ∈ (step h s e).mgr.pendingPieces ∨ q ∈ (step h s e).mgr.completePieces := by
  cases e with
  | plan peer bf pick =>
    have hmgr : (step h s (Ev.plan peer bf pick)).mgr = (getPieceToRequest s.mgr bf pick).1 := by
      rw [step]
      rcases hg : (getPieceToRequest s.mgr bf pick).2 with _ | i
      · rfl
      · dsimp only
        rcases hb : getNextBlock (s.mgr.pieces.getD i default) with _ | b
        · rfl
        · rfl
    rw [hmgr]
    rcases hres : (getPieceToRequest s.mgr bf pick).2 with _ | i
    · rw [(getPieceToRequest_spec s.mgr bf pick).1 hres]
      exact hq
    · rw [((getPieceToRequest_spec s.mgr bf pick).2 i hres).2]
      rcases hq with hq | hq
      · exact Or.inl (List.mem_insert_of_mem hq)
      · exact Or.inr hq
  | deliver peer pieceIndex begin_ data writeOk =>
    rcases hpmAux_cases h writeOk s.mgr pieceIndex begin_ data with
      ⟨e1, e2, _⟩ | ⟨e1, e2, _⟩ | ⟨e1, e2, e3⟩
    · rw [step]
      rw [e1, e2]
      exact hq
    · rw [step]
      rw [e1, e2]
      rcases hq with hq | hq
      · by_cases hqe : q = pieceIndex
        · exact Or.inr (hqe ▸ List.mem_insert_self _ _)
        · exact Or.inl (List.mem_filter.mpr ⟨hq, by simp [hqe]⟩)
      · exact Or.inr (List.mem_insert_of_mem hq)
    · have hqe : q ≠ pieceIndex := by
        intro hcontra
        apply hnr
        subst hcontra
        rw [resetsIn, resetOf, e3]
        simp
      rw [step]
      rw [e1, e2]
      rcases hq with hq | hq
      · exact Or.inl (List.mem_filter.mpr ⟨hq, by simp [hqe]⟩)
      · exact Or.inr hq
  | timeout peer pieceIndex begin_ => exact hq
  | dropPeer peer => exact hq

theorem run_pend_comp (h : List Nat → List Nat) (t : List Ev) :
    ∀ (s : Sys) (q : Nat),
      (q ∈ s.mgr.pendingPieces ∨ q ∈ s.mgr.completePieces) →
      q ∉ resetsIn h s t →
      (q ∈ (runS h s t).mgr.pendingPieces ∨ q ∈ (runS h s t).mgr.completePieces) := by
  induction t with
  | nil => exact fun s q hq _ => hq
  | cons e t ih =>
    intro s q hq hnr
    rw [runS]
    have hnr1 : q ∉ resetsIn h s [e] := by
      intro hmem
      apply hnr
      rw [resetsIn] at hmem ⊢
      rcases List.mem_append.mp hmem with h1 | h1
      · exact List.mem_append.mpr (Or.inl h1)
      · simp [resetsIn] at h1
    have hnr2 : q ∉ resetsIn h (step h s e) t := by
      intro hmem
      exact hnr (by rw [resetsIn]; exact List.mem_append.mpr (Or.inr hmem))
    exact ih (step h s e) q (step_pend_comp h s e q hq hnr1) hnr2

/-- The shape of a planning step: the manager comes from `GetPieceToRequest`,
and the ledger either is untouched or received the planned block via
`AddRequest`. -/
theorem step_plan (h : List Nat → List Nat) (s : Sys) (peer : Nat)
    (bf : Option (List Nat)) (pick : Nat) :
    (step h s (Ev.plan peer bf pick)).mgr = (getPieceToRequest s.mgr bf pick).1 ∧
    ((step h s (Ev.plan peer bf pick)).rm = s.rm ∨
      ∃ i b, (getPieceToRequest s.mgr bf pick).2 = some i ∧
        getNextBlock (s.mgr.pieces.getD i default) = some b ∧
        (step h s (Ev.plan peer bf pick)).rm = (addRequest s.rm peer i b.begin_ b.length).1) := by
  rw [step]
  rcases hg : (getPieceToRequest s.mgr bf pick).2 with _ | i
  · exact ⟨rfl, Or.inl rfl⟩
  · dsimp only
    rcases hb : getNextBlock (s.mgr.pieces.getD i default) with _ | b
    · exact ⟨rfl, Or.inl rfl⟩
    · exact ⟨rfl, Or.inr ⟨i, b, rfl, hb, rfl⟩⟩

/-- The C3 invariant: every outstanding ledger entry is for a piece that is
pending or already complete. -/
def ledgerInv (s : Sys) : Prop :=
  ∀ kv ∈ s.rm.activeRequests,
    kv.1.2.1 ∈ s.mgr.pendingPieces ∨ kv.1.2.1 ∈ s.mgr.completePieces

theorem step_ledgerInv (h : List Nat → List Nat) (s : Sys) (e : Ev)
    (hres : resetsIn h s [e] = []) (hinv : ledgerInv s) : ledgerInv (step h s e) := by
  cases e with
  | plan peer bf pick =>
    obtain ⟨hmgr, hrm⟩ := step_plan h s peer bf pick
    intro kv hkv
    rw [hmgr]
    rcases hg : (getPieceToRequest s.mgr bf pick).2 with _ | i
    · rw [(getPieceToRequest_spec s.mgr bf pick).1 hg]
      rcases hrm with hrm | ⟨i, b, hg2, _, hrm⟩
      · rw [hrm] at hkv
        exact hinv kv hkv
      · rw [hg] at hg2
        exact absurd hg2 (by simp)
    · have hspec := (getPieceToRequest_spec s.mgr bf pick).2 i hg
      rw [hspec.2]
      rcases hrm with hrm | ⟨i', b, hg2, hb, hrm⟩
      · rw [hrm] at hkv
        rcases hinv kv hkv with hc | hc
        · exact Or.inl (List.mem_insert_of_mem hc)
        · exact Or.inr hc
      · rw [hg] at hg2
        obtain rfl : i = i' := by injection hg2
        rw [hrm] at hkv
        rcases addRequest_entries s.rm peer i b.begin_ b.length kv hkv with hk | hk
        · rw [hk]
          exact Or.inl (List.mem_insert_self _ _)
        · rcases hinv kv hk with hc | hc
          · exact Or.inl (List.mem_insert_of_mem hc)
          · exact Or.inr hc
  | deliver peer pieceIndex begin_ data writeOk =>
    intro kv hkv
    have hold := hinv kv (removeRequest_subset s.rm peer pieceIndex begin_ kv hkv)
    have hflag : (hpmAux h writeOk s.mgr pieceIndex begin_ data).2.2 = false := by
      cases hfl : (hpmAux h writeOk s.mgr pieceIndex begin_ data).2.2 with
      | false => rfl
      | true =>
        exfalso
        rw [resetsIn, resetOf, hfl] at hres
        simp at hres
    have hmgr : (step h s (Ev.deliver peer pieceIndex begin_ data writeOk)).mgr =
        (hpmAux h writeOk s.mgr pieceIndex begin_ data).1 := rfl
    rcases hpmAux_cases h writeOk s.mgr pieceIndex begin_ data with
      ⟨e1, e2, _⟩ | ⟨e1, e2, _⟩ | ⟨_, _, e3⟩
    · rw [hmgr, e1, e2]
      exact hold
    · rw [hmgr, e1, e2]
      rcases hold with hc | hc
      · by_cases hqe : kv.1.2.1 = pieceIndex
        · exact Or.inr (hqe ▸ List.mem_insert_self _ _)
        · exact Or.inl (List.mem_filter.mpr ⟨hc, by simp [hqe]⟩)
      · exact Or.inr (List.mem_insert_of_mem hc)
    · rw [hflag] at e3
      exact absurd e3 (by simp)
  | timeout peer pieceIndex begin_ =>
    intro kv hkv
    exact hinv kv (removeRequest_subset s.rm peer pieceIndex begin_ kv hkv)
  | dropPeer peer =>
    intro kv hkv
    exact hinv kv (clearPeerRequests_subset s.rm peer kv hkv)

theorem run_ledgerInv (h : List Nat → List Nat) (t : List Ev) :
    ∀ s : Sys, resetsIn h s t = [] → ledgerInv s → ledgerInv (runS h s t) := by
  induction t with
  | nil => exact fun s _ hi => hi
  | cons e t ih =>
    intro s hres hinv
    rw [runS]
    rw [resetsIn] at hres
    obtain ⟨ha, hb⟩ := List.append_eq_nil.mp hres
    have h1 : resetsIn h s [e] = [] := by
      rw [resetsIn, ha]
      simp [resetsIn]
    exact ih (step h s e) hb (step_ledgerInv h s e h1 hinv)

theorem planResult_some (s : Sys) (bf : Option (List Nat)) (pick p o : Nat)
    (hp : planResult s bf pick = some (p, o)) :
    (getPieceToRequest s.mgr bf pick).2 = some p := by
  unfold planResult at hp
  revert hp
  rcases hg : (getPieceToRequest s.mgr bf pick).2 with _ | i
  · intro hp
    simp at hp
  · dsimp only
    rcases hb : getNextBlock (s.mgr.pieces.getD i default) with _ | b
    · intro hp
      simp at hp
    · intro hp
      simp only [Option.some.injEq, Prod.mk.injEq] at hp
      rw [hp.1]

/-- C3.  Along any engine trace from the initial state: two planning calls
(`GetPieceToRequest` + `GetNextBlock`, ledger insert included) return blocks
with distinct `(piece, offset)` pairs unless the first call's piece was reset
in between; and as long as no reset has occurred, a planning call never
returns a block whose `(piece, offset)` is already tracked by an outstanding
ledger entry. -/
theorem c3_planning_no_duplicates :
    (∀ (h : List Nat → List Nat) (hashes : List (List Nat)) (pieceLength totalLength : Nat)
      (t1 t2 : List Ev) (peer1 : Nat) (bf1 bf2 : Option (List Nat)) (pick1 pick2 : Nat)
      (p1 o1 p2 o2 : Nat),
      planResult (runS h (initSys hashes pieceLength totalLength) t1) bf1 pick1 =
        some (p1, o1) →
      planResult (runS h (step h (runS h (initSys hashes pieceLength totalLength) t1)
        (Ev.plan peer1 bf1 pick1)) t2) bf2 pick2 = some (p2, o2) →
      p1 ∉ resetsIn h (step h (runS h (initSys hashes pieceLength totalLength) t1)
        (Ev.plan peer1 bf1 pick1)) t2 →
      (p1, o1) ≠ (p2, o2)) ∧
    (∀ (h : List Nat → List Nat) (hashes : List (List Nat)) (pieceLength totalLength : Nat)
      (t : List Ev) (bf : Option (List Nat)) (pick p o : Nat),
      resetsIn h (initSys hashes pieceLength totalLength) t = [] →
      planResult (runS h (initSys hashes pieceLength totalLength) t) bf pick = some (p, o) →
      ∀ kv ∈ (runS h (initSys hashes pieceLength totalLength) t).rm.activeRequests,
        ¬(kv.1.2.1 = p ∧ kv.1.2.2 = o)) := by
  constructor
  · intro h hashes pieceLength totalLength t1 t2 peer1 bf1 bf2 pick1 pick2 p1 o1 p2 o2
      hplan1 hplan2 hreset heq
    have hg1 := planResult_some _ bf1 pick1 p1 o1 hplan1
    have hp1pend : p1 ∈ (step h (runS h (initSys hashes pieceLength totalLength) t1)
        (Ev.plan peer1 bf1 pick1)).mgr.pendingPieces := by
      rw [(step_plan h _ peer1 bf1 pick1).1,
        ((getPieceToRequest_spec _ bf1 pick1).2 p1 hg1).2]
      exact List.mem_insert_self _ _
    have hs2 := run_pend_comp h t2 _ p1 (Or.inl hp1pend) hreset
    have hg2 := planResult_some _ bf2 pick2 p2 o2 hplan2
    have hnp := isPieceAvailable_not_pending _ p2 bf2
      ((getPieceToRequest_spec _ bf2 pick2).2 p2 hg2).1
    obtain ⟨rfl, rfl⟩ : p1 = p2 ∧ o1 = o2 := by
      simpa using heq
    rcases hs2 with hc | hc
    · exact hnp.2 hc
    · exact hnp.1 hc
  · intro h hashes pieceLength totalLength t bf pick p o hres hplan kv hkv hcol
    have hinv := run_ledgerInv h t (initSys hashes pieceLength totalLength) hres
      (fun kv hkv => by simp [initSys, newRequestManager] at hkv)
    have hold := hinv kv hkv
    have hg := planResult_some _ bf pick p o hplan
    have hnp := isPieceAvailable_not_pending _ p bf
      ((getPieceToRequest_spec _ bf pick).2 p hg).1
    rw [hcol.1] at hold
    rcases hold with hc | hc
    · exact hnp.2 hc
    · exact hnp.1 hc

/-- The abstract hash for the C3 witness (its value is irrelevant to
planning). -/
def hashNil : List Nat → List Nat := fun _ => []

/-- Witness for C3: on a fresh two-piece torrent, planning for one peer and
then planning again returns blocks of two different pieces, and the second
call's block collides with no ledger entry. -/
theorem c3_planning_no_duplicates_witness :
    ((0, 0) : Nat × Nat) ≠ ((1, 0) : Nat × Nat) ∧
    (∀ kv ∈ (runS hashNil (initSys [[0], [1]] 5 10) []).rm.activeRequests,
      ¬(kv.1.2.1 = 0 ∧ kv.1.2.2 = 0)) :=
  ⟨c3_planning_no_duplicates.1 hashNil [[0], [1]] 5 10 [] [] 0 (some [192]) (some [192]) 0 0
      0 0 1 0 (by decide) (by decide) (by decide),
   c3_planning_no_duplicates.2 hashNil [[0], [1]] 5 10 [] (some [192]) 0 0 0
      (by decide) (by decide)⟩

end BTC
